import Mathlib

set_option maxHeartbeats 1000000

/-!
Verification of the predicate-to-key-range optimizer of the scan planning
layer (ScanSpec / ColumnPredicate over a composite primary key).  The
optimizer implementation itself is not part of the source tree (only its
test suite, scan_spec-test.cc, is), so the operations are modelled from
the specification and cross-checked against every expectation recorded in
the tests.  Keys over int8 columns are modelled as decoded integer tuples
ordered lexicographically, which agrees with the order-preserving byte
encoding of the key codec.
-/

namespace KuduScanSpec

/-- Minimum value of the int8 physical type, the MIN sentinel used to fill
unconstrained trailing key columns. -/
def int8Min : Int := -128

/-- Maximum value of the int8 physical type. -/
def int8Max : Int := 127

/-- Modelled from the spec: a column predicate is Equality(v) or
Range(low, high) with inclusive low and exclusive high bound, either of
which may be absent; a merge that produces an empty range is the
distinguished unsatisfiable outcome.  The ColumnPredicate implementation is
missing from the source tree (only scan_spec-test.cc is present), so this
follows spec section 4.1 together with the behaviour observed in the tests. -/
inductive Pred where
  | equality (v : Int)
  | range (lo hi : Option Int)
  | unsat
deriving DecidableEq

/-- Satisfaction of an optional inclusive lower bound. -/
def optLoSat (lo : Option Int) (x : Int) : Bool :=
  match lo with
  | none => true
  | some l => decide (l ≤ x)

/-- Satisfaction of an optional exclusive upper bound. -/
def optHiSat (hi : Option Int) (x : Int) : Bool :=
  match hi with
  | none => true
  | some h => decide (x < h)

/-- Row-level satisfaction of a single column predicate. -/
def Pred.sat : Pred → Int → Bool
  | .equality v, x => decide (x = v)
  | .range lo hi, x => optLoSat lo x && optHiSat hi x
  | .unsat, _ => false

/-- Maximum of two optional lower bounds; an absent bound acts as minus
infinity. -/
def maxLo : Option Int → Option Int → Option Int
  | none, b => b
  | a, none => a
  | some a, some b => some (max a b)

/-- Minimum of two optional exclusive upper bounds; an absent bound acts as
plus infinity. -/
def minHi : Option Int → Option Int → Option Int
  | none, b => b
  | a, none => a
  | some a, some b => some (min a b)

/-- Modelled from the spec: range construction with simplification.  A range
holding exactly one value collapses to Equality and an empty range collapses
to the unsatisfiable outcome. -/
def mkRange : Option Int → Option Int → Pred
  | some l, some h =>
    if h ≤ l then .unsat
    else if h = l + 1 then .equality l
    else .range (some l) (some h)
  | lo, hi => .range lo hi

/-- Modelled from the spec (section 4.1): merge of two predicates on the same
column into their intersection. -/
def Pred.merge : Pred → Pred → Pred
  | .unsat, _ => .unsat
  | _, .unsat => .unsat
  | .equality v, .equality w => if v = w then .equality v else .unsat
  | .equality v, .range lo hi =>
    if optLoSat lo v && optHiSat hi v then .equality v else .unsat
  | .range lo hi, .equality v =>
    if optLoSat lo v && optHiSat hi v then .equality v else .unsat
  | .range l1 h1, .range l2 h2 => mkRange (maxLo l1 l2) (minHi h1 h2)

/-- Modelled from the spec: inclusive-to-exclusive conversion of an upper
bound for a fixed-width type whose maximum is mx.  The exclusive bound is
v + 1 when v is below the maximum and is absent otherwise. -/
def inclusiveUpperFixed (mx v : Int) : Option Int :=
  if v < mx then some (v + 1) else none

/-- Modelled from the spec: building the predicate for a constraint
col less-or-equal v on a fixed-width type with maximum mx.  When v is the
maximum the constraint is vacuous and no predicate at all is produced. -/
def inclusiveRangeFixed (mx v : Int) : Option Pred :=
  match inclusiveUpperFixed mx v with
  | none => none
  | some h => some (.range none (some h))

/-- The three key columns of the composite int8 primary key used throughout
the test schema. -/
inductive Col where
  | a
  | b
  | c
deriving DecidableEq

/-- Column to predicate mapping of a predicate set; an absent entry means the
column is unconstrained. -/
structure PredMap where
  pa : Option Pred
  pb : Option Pred
  pc : Option Pred
deriving DecidableEq

/-- The empty predicate set. -/
def emptyMap : PredMap := ⟨none, none, none⟩

/-- Merge an incoming predicate into the optional entry of one column. -/
def addMerge (x : Option Pred) (p : Pred) : Option Pred :=
  some (match x with
  | none => p
  | some q => q.merge p)

/-- Add a predicate on a column, merging with the existing predicate on that
column when there is one. -/
def PredMap.add (m : PredMap) (col : Col) (p : Pred) : PredMap :=
  match col with
  | .a => ⟨addMerge m.pa p, m.pb, m.pc⟩
  | .b => ⟨m.pa, addMerge m.pb p, m.pc⟩
  | .c => ⟨m.pa, m.pb, addMerge m.pc p⟩

/-- Add a list of column predicates in order. -/
def addList (m : PredMap) (l : List (Col × Pred)) : PredMap :=
  l.foldl (fun m cp => m.add cp.1 cp.2) m

/-- Comparison operators of the test driver AddPredicate helper. -/
inductive CmpOp where
  | GE
  | EQ
  | LE
deriving DecidableEq

/-- Predicate built by the test driver for one comparison on an int8 column:
GE v becomes Range(v, absent), EQ v becomes Equality(v), and LE v goes
through the inclusive-to-exclusive conversion and may produce no predicate. -/
def predOf (op : CmpOp) (v : Int) : Option Pred :=
  match op with
  | .GE => some (.range (some v) none)
  | .EQ => some (.equality v)
  | .LE => inclusiveRangeFixed int8Max v

/-- Apply one AddPredicate call of the test driver to a predicate set. -/
def PredMap.addOp (m : PredMap) (col : Col) (op : CmpOp) (v : Int) : PredMap :=
  match predOf op v with
  | none => m
  | some p => m.add col p

/-- A decoded primary key or row over the three int8 key columns. -/
abbrev Row := Int × Int × Int

/-- Lexicographic strict order on decoded keys; this is the byte order of the
order-preserving key encoding. -/
def keyLt (r s : Row) : Bool :=
  decide (r.1 < s.1) ||
    (decide (r.1 = s.1) &&
      (decide (r.2.1 < s.2.1) ||
        (decide (r.2.1 = s.2.1) && decide (r.2.2 < s.2.2))))

/-- Lexicographic order on decoded keys, non-strict version. -/
def keyLe (r s : Row) : Bool :=
  decide (r.1 < s.1) ||
    (decide (r.1 = s.1) &&
      (decide (r.2.1 < s.2.1) ||
        (decide (r.2.1 = s.2.1) && decide (r.2.2 ≤ s.2.2))))

/-- A row whose three cells all lie in the int8 value domain. -/
def validRowB (r : Row) : Bool :=
  decide (int8Min ≤ r.1) && decide (r.1 ≤ int8Max) &&
  decide (int8Min ≤ r.2.1) && decide (r.2.1 ≤ int8Max) &&
  decide (int8Min ≤ r.2.2) && decide (r.2.2 ≤ int8Max)

/-- Satisfaction of an optional column predicate by one cell value. -/
def satOpt (p : Option Pred) (x : Int) : Bool :=
  match p with
  | none => true
  | some q => q.sat x

/-- Row-level satisfaction of the whole predicate set. -/
def PredMap.satRow (m : PredMap) (r : Row) : Bool :=
  satOpt m.pa r.1 && satOpt m.pb r.2.1 && satOpt m.pc r.2.2

/-- Membership of a row below an optional inclusive lower key. -/
def loKeyOk (lk : Option Row) (r : Row) : Bool :=
  match lk with
  | none => true
  | some l => keyLe l r

/-- Membership of a row below an optional exclusive upper key. -/
def hiKeyOk (uk : Option Row) (r : Row) : Bool :=
  match uk with
  | none => true
  | some u => keyLt r u

/-- Membership of a row in the half-open primary key range. -/
def inRangeB (lk uk : Option Row) (r : Row) : Bool :=
  loKeyOk lk r && hiKeyOk uk r

/-- The successor of one int8 cell, absent at the maximum. -/
def succCell (v : Int) : Option Int :=
  if v < int8Max then some (v + 1) else none

/-- Successor-with-carry starting at column zero: a carry past column zero
means no finite successor exists. -/
def succCarry0 (r : Row) : Option Row :=
  match succCell r.1 with
  | some s => some (s, int8Min, int8Min)
  | none => none

/-- Successor-with-carry starting at column one; overflow carries into the
step for column zero. -/
def succCarry1 (r : Row) : Option Row :=
  match succCell r.2.1 with
  | some s => some (r.1, s, int8Min)
  | none => succCarry0 r

/-- Successor-with-carry starting at column two; overflow carries into the
step for column one. -/
def succCarry2 (r : Row) : Option Row :=
  match succCell r.2.2 with
  | some s => some (r.1, r.2.1, s)
  | none => succCarry1 r

/-- Modelled from the spec (section 4.2): successor-with-carry on a decoded
key starting at a column index.  On success the columns after the start index
are reset to MIN; overflow recurses one column to the left, and a carry past
column zero means no finite successor exists. -/
def succCarry (r : Row) : Nat → Option Row
  | 0 => succCarry0 r
  | 1 => succCarry1 r
  | _ => succCarry2 r

/-- The lower bound value contributed by a predicate to the lower key walk:
the value of an Equality, or the present low bound of a Range. -/
def predLo (p : Option Pred) : Option Int :=
  match p with
  | some (.equality v) => some v
  | some (.range (some l) _) => some l
  | _ => none

/-- The present exclusive high bound of a Range predicate. -/
def predHiX (p : Option Pred) : Option Int :=
  match p with
  | some (.range _ (some h)) => some h
  | _ => none

/-- The value of an Equality predicate. -/
def eqVal (p : Option Pred) : Option Int :=
  match p with
  | some (.equality v) => some v
  | _ => none

/-- Modelled from the spec (section 4.4): the pushed lower key.  Walk the key
columns left to right appending each lower bound value and stop at the first
column without one, filling the remainder with MIN; no key is produced when
the first column has no lower bound value. -/
def pushLower (m : PredMap) : Option Row :=
  match predLo m.pa with
  | none => none
  | some la =>
    match predLo m.pb with
    | none => some (la, int8Min, int8Min)
    | some lb =>
      match predLo m.pc with
      | none => some (la, lb, int8Min)
      | some lc => some (la, lb, lc)

/-- Modelled from the spec (section 4.4): the pushed exclusive upper key.
Let k be the length of the leading equality run.  When every column is an
equality, run successor-with-carry on the full equality tuple.  Otherwise,
when column k has a present exclusive high bound h, place the largest cell
value below h at position k (rest MIN) and run successor-with-carry from
position k; when column k has no high bound, run successor-with-carry on the
equality prefix alone.  A carry past column zero yields no upper key. -/
def pushUpper (m : PredMap) : Option Row :=
  match eqVal m.pa with
  | none =>
    match predHiX m.pa with
    | some h => succCarry (h - 1, int8Min, int8Min) 0
    | none => none
  | some va =>
    match eqVal m.pb with
    | none =>
      match predHiX m.pb with
      | some h => succCarry (va, h - 1, int8Min) 1
      | none => succCarry (va, int8Min, int8Min) 0
    | some vb =>
      match eqVal m.pc with
      | none =>
        match predHiX m.pc with
        | some h => succCarry (va, vb, h - 1) 2
        | none => succCarry (va, vb, int8Min) 1
      | some vc => succCarry (va, vb, vc) 2

/-- Length of the leading run of key columns holding an Equality predicate. -/
def eqPrefixLen (m : PredMap) : Nat :=
  match eqVal m.pa with
  | none => 0
  | some _ =>
    match eqVal m.pb with
    | none => 1
    | some _ =>
      match eqVal m.pc with
      | none => 2
      | some _ => 3

/-- Modelled from the spec (section 4.5): predicate erasure after the push.
The equality prefix columns and the single column after the prefix are
subsumed by the pushed key range (the contributing Range predicates of the
later columns remain as residual row-level filters), matching the residual
sets recorded in the tests. -/
def prune (m : PredMap) : PredMap :=
  match eqPrefixLen m with
  | 0 => ⟨none, m.pb, m.pc⟩
  | 1 => ⟨none, none, m.pc⟩
  | _ => ⟨none, none, none⟩

/-- Drop a decoded cell value that equals the MIN sentinel, which signals
absence of information rather than a real bound. -/
def dropMin (v : Int) : Option Int :=
  if v = int8Min then none else some v

/-- Modelled from the spec (section 4.3): the exclusive high bound lifted
from the upper key at one column.  When every later column of the upper key
decodes to MIN the decoded cell itself is the exclusive bound (absent when it
is MIN); otherwise rows equal to the cell can still precede the upper key, so
the bound is the cell successor, absent on overflow. -/
def liftHiAt (u : Int) (suffixMin : Bool) : Option Int :=
  if suffixMin then dropMin u else inclusiveUpperFixed int8Max u

/-- Merge one lifted predicate into the set, skipping the no-information
range with neither bound. -/
def applyLift (m : PredMap) (col : Col) (p : Pred) : PredMap :=
  match p with
  | .range none none => m
  | p => m.add col p

/-- Modelled from the spec (section 4.3): the Lift pass.  Walk the key
columns left to right building the predicate implied by the decoded bound
keys at each column; a bound key keeps constraining later columns only while
each earlier column is pinned to exactly its decoded value, and an absent
bound key is treated as fully unbounded at every column. -/
def liftBounds (m : PredMap) (lk uk : Option Row) : PredMap :=
  let lo0 : Option Int := match lk with
    | some l => dropMin l.1
    | none => none
  let hi0 : Option Int := match uk with
    | some u => liftHiAt u.1 (decide (u.2.1 = int8Min) && decide (u.2.2 = int8Min))
    | none => none
  let p0 := mkRange lo0 hi0
  let m0 := applyLift m Col.a p0
  let lk0 : Option Row := match lk with
    | some l => if p0 = Pred.equality l.1 then some l else none
    | none => none
  let uk0 : Option Row := match uk with
    | some u => if p0 = Pred.equality u.1 then some u else none
    | none => none
  let lo1 : Option Int := match lk0 with
    | some l => dropMin l.2.1
    | none => none
  let hi1 : Option Int := match uk0 with
    | some u => liftHiAt u.2.1 (decide (u.2.2 = int8Min))
    | none => none
  let p1 := mkRange lo1 hi1
  let m1 := applyLift m0 Col.b p1
  let lk1 : Option Row := match lk0 with
    | some l => if p1 = Pred.equality l.2.1 then some l else none
    | none => none
  let uk1 : Option Row := match uk0 with
    | some u => if p1 = Pred.equality u.2.1 then some u else none
    | none => none
  let lo2 : Option Int := match lk1 with
    | some l => dropMin l.2.2
    | none => none
  let hi2 : Option Int := match uk1 with
    | some u => liftHiAt u.2.2 true
    | none => none
  let p2 := mkRange lo2 hi2
  applyLift m1 Col.c p2

/-- A scan specification: the predicate set plus the optional explicit
inclusive lower and exclusive upper bound keys. -/
structure ScanSpec where
  preds : PredMap
  lowerKey : Option Row
  upperKey : Option Row
deriving DecidableEq

/-- The larger of two optional lower keys, an absent key being unbounded. -/
def keyMaxOpt (a b : Option Row) : Option Row :=
  match a, b with
  | none, b => b
  | a, none => a
  | some x, some y => some (if keyLe x y then y else x)

/-- The smaller of two optional upper keys, an absent key being unbounded. -/
def keyMinOpt (a b : Option Row) : Option Row :=
  match a, b with
  | none, b => b
  | a, none => a
  | some x, some y => some (if keyLe x y then x else y)

/-- Modelled from the spec (section 4): the Optimize entry point, running
Lift, then Push (intersecting derived keys with the explicit bounds, keeping
the tighter one on each side), then Prune when erasure is requested. -/
def optimizeScan (s : ScanSpec) (erase : Bool) : ScanSpec :=
  let m := liftBounds s.preds s.lowerKey s.upperKey
  let lw := keyMaxOpt s.lowerKey (pushLower m)
  let up := keyMinOpt s.upperKey (pushUpper m)
  { preds := if erase then prune m else m
    lowerKey := lw
    upperKey := up }

/-- Byte-string values of variable-length string key columns. -/
abbrev StrVal := List Nat

/-- Modelled from the spec: the successor of a string value appends one zero
byte and is always defined. -/
def strSuccessor (v : StrVal) : StrVal := v ++ [0]

/-- A column predicate over a string column. -/
inductive StrPred where
  | equality (v : StrVal)
  | range (lo hi : Option StrVal)
deriving DecidableEq

/-- Modelled from the spec: inclusive-to-exclusive conversion of a string
upper bound, which always succeeds because the string successor always
exists. -/
def inclusiveUpperString (v : StrVal) : Option StrVal :=
  some (strSuccessor v)

/-- Modelled from the spec: the predicate built for an inclusive string upper
bound constraint; unlike the fixed-width case it is never eliminated. -/
def inclusiveRangeString (v : StrVal) : Option StrPred :=
  match inclusiveUpperString v with
  | none => none
  | some h => some (.range none (some h))

/-- Well-formedness of a predicate over an int8 column, the contract
guaranteed for predicates built from well-typed inputs: bound values lie in
the int8 domain, an exclusive high bound is above MIN, a two-sided range is
nonempty, and the distinguished unsatisfiable outcome has already been
detected as a terminal result before the push. -/
def Pred.wf : Pred → Bool
  | .equality v => decide (int8Min ≤ v) && decide (v ≤ int8Max)
  | .range none none => false
  | .range none (some h) => decide (int8Min < h) && decide (h ≤ int8Max)
  | .range (some l) none => decide (int8Min ≤ l) && decide (l ≤ int8Max)
  | .range (some l) (some h) =>
      decide (int8Min ≤ l) && decide (l ≤ int8Max) &&
      decide (int8Min < h) && decide (h ≤ int8Max) && decide (l < h)
  | .unsat => false

/-- Well-formedness of an optional column predicate. -/
def wfOpt : Option Pred → Bool
  | none => true
  | some p => p.wf

/-- Well-formedness of a whole predicate set. -/
def PredMap.wf (m : PredMap) : Bool :=
  wfOpt m.pa && wfOpt m.pb && wfOpt m.pc

/-- The predicate set truncated after the equality prefix and the single
column that follows it; the later columns are dropped. -/
def truncAfterEq (m : PredMap) : PredMap :=
  match eqPrefixLen m with
  | 0 => ⟨m.pa, none, none⟩
  | 1 => ⟨m.pa, m.pb, none⟩
  | _ => m

/-- C4: adding a = 127, b at-least 3, b at-most 127, b at-most 100 and
c at-most 64 merges to exactly the three predicates a = 127, b in the
half-open interval from 3 to 101 and c unbounded below with exclusive high
bound 65; the vacuous b at-most 127 produces no predicate. -/
theorem simplify_merges_scenario_a :
    ((((emptyMap.addOp .a .EQ 127).addOp .b .GE 3).addOp .b .LE 127).addOp .b .LE 100).addOp .c .LE 64
      = ⟨some (.equality 127), some (.range (some 3) (some 101)), some (.range none (some 65))⟩ := by
  decide

/-- C3: with a = 127 as equality and b constrained to the interval from 3 to
127, Optimize pushes the lower key (127, 3, MIN) and no upper key at all,
the successor overflow carrying past the first column. -/
theorem redundant_upper_bound_unbounded :
    optimizeScan ⟨((emptyMap.addOp .a .EQ 127).addOp .b .GE 3).addOp .b .LE 127, none, none⟩ true
      = ⟨emptyMap, some (127, 3, int8Min), none⟩ := by
  decide

/-- C6: with predicates a at-least 3, b at-least 4 and c at-least 5, Optimize
pushes the chained lower key (3, 4, 5), no upper key, and the residual
predicates on b and c remain after pruning while the first-column predicate
is erased. -/
theorem lower_chain_residuals_scenario_c :
    optimizeScan ⟨((emptyMap.addOp .a .GE 3).addOp .b .GE 4).addOp .c .GE 5, none, none⟩ true
      = ⟨⟨none, some (.range (some 4) none), some (.range (some 5) none)⟩,
         some (3, 4, 5), none⟩ := by
  decide

/-- C5: with explicit inclusive lower key (10, MIN, MIN), exclusive upper key
(10, 90, MIN) and pre-existing predicates b at-least 15 and c between 3 and
100, Lift followed by merge yields exactly a = 10, b in the half-open
interval from 15 to 90 and c in the half-open interval from 3 to 101. -/
theorem lift_merge_scenario_e :
    (optimizeScan ⟨((emptyMap.addOp .b .GE 15).addOp .c .GE 3).addOp .c .LE 100,
        some (10, int8Min, int8Min), some (10, 90, int8Min)⟩ false).preds
      = ⟨some (.equality 10), some (.range (some 15) (some 90)),
         some (.range (some 3) (some 101))⟩ := by
  decide

/-- C10: with inclusive lower key (10, 11, 12) and exclusive upper key
(10, 11, 13) diverging only at the last column by exactly one, Lift produces
an Equality predicate on every column, the width-one half-open range on the
divergence column collapsing to Equality(12). -/
theorem both_bounds_width_one_collapses_to_equality :
    (optimizeScan ⟨emptyMap, some (10, 11, 12), some (10, 11, 13)⟩ false).preds
      = ⟨some (.equality 10), some (.equality 11), some (.equality 12)⟩ := by
  decide

/-- C2 counterexample: with only the exclusive upper key (10, 11, 12), the
lifted predicate on the first column has high bound 11, the successor of the
decoded value, not the decoded value 10 claimed. -/
theorem lift_upper_decoded_refuted :
    (optimizeScan ⟨emptyMap, none, some (10, 11, 12)⟩ false).preds.pa
        = some (.range none (some 11))
    ∧ (optimizeScan ⟨emptyMap, none, some (10, 11, 12)⟩ false).preds.pa
        ≠ some (.range none (some 10)) := by
  decide

/-- C2 amended: when only an exclusive upper key is present, Lift produces a
single Range predicate on the first column and nothing on later columns; its
high bound is the decoded upper-key value when every later column decodes to
MIN (omitted when that value is MIN) and the successor of the decoded value
otherwise (omitted on overflow); so upper key (10, 11, 12) lifts to a below
11, (10, 11, MIN) lifts to a below 11, and (10, MIN, MIN) lifts to a below
10. -/
theorem lift_upper_only_behaviour :
    (optimizeScan ⟨emptyMap, none, some (10, 11, 12)⟩ false).preds
      = ⟨some (.range none (some 11)), none, none⟩
    ∧ (optimizeScan ⟨emptyMap, none, some (10, 11, int8Min)⟩ false).preds
      = ⟨some (.range none (some 11)), none, none⟩
    ∧ (optimizeScan ⟨emptyMap, none, some (10, int8Min, int8Min)⟩ false).preds
      = ⟨some (.range none (some 10)), none, none⟩
    ∧ ∀ u : Row, liftBounds emptyMap none (some u)
        = applyLift emptyMap Col.a
            (mkRange none (liftHiAt u.1 (decide (u.2.1 = int8Min) && decide (u.2.2 = int8Min)))) := by
  refine ⟨by decide, by decide, by decide, fun u => ?_⟩
  cases hu : liftHiAt u.1 (decide (u.2.1 = int8Min) && decide (u.2.2 = int8Min)) <;>
    simp [liftBounds, hu, mkRange, applyLift]

/-- C8: for a fixed-width type with maximum mx, an inclusive upper bound at
the maximum converts to no predicate at all, while for every string value the
conversion yields the exclusive bound given by the string successor, which
always exists, so no string constraint is ever eliminated this way. -/
theorem le_max_fixed_vs_string :
    (∀ mx : Int, inclusiveRangeFixed mx mx = none)
    ∧ ∀ v : StrVal, inclusiveRangeString v
        = some (.range none (some (strSuccessor v))) := by
  refine ⟨fun mx => ?_, fun v => rfl⟩
  simp [inclusiveRangeFixed, inclusiveUpperFixed]

/-- C7: the pushed upper key is unchanged when every column after the
equality prefix and the single column following it is dropped, so no later
column contributes a high bound; concretely, for a at-most 3, b at-most 4
and c at-most 5 the pushed upper key is (4, MIN, MIN) while b below 5 and c
below 6 remain as residual predicates. -/
theorem upper_chain_stops_after_eq_run :
    (∀ m : PredMap, pushUpper m = pushUpper (truncAfterEq m))
    ∧ optimizeScan ⟨((emptyMap.addOp .a .LE 3).addOp .b .LE 4).addOp .c .LE 5, none, none⟩ true
      = ⟨⟨none, some (.range none (some 5)), some (.range none (some 6))⟩,
         none, some (4, int8Min, int8Min)⟩ := by
  refine ⟨fun m => ?_, by decide⟩
  cases ha : eqVal m.pa <;> cases hb : eqVal m.pb <;> cases hc : eqVal m.pc <;>
    simp only [pushUpper, truncAfterEq, eqPrefixLen, ha, hb, hc]

/-- Merging with the unsatisfiable outcome on the right is absorbing. -/
theorem merge_unsat_right (p : Pred) : p.merge .unsat = .unsat := by
  cases p <;> rfl

/-- Optional lower bound maxima commute. -/
theorem maxLo_comm (a b : Option Int) : maxLo a b = maxLo b a := by
  cases a <;> cases b <;> simp [maxLo, max_comm]

/-- Optional upper bound minima commute. -/
theorem minHi_comm (a b : Option Int) : minHi a b = minHi b a := by
  cases a <;> cases b <;> simp [minHi, min_comm]

/-- Optional lower bound maxima associate. -/
theorem maxLo_assoc (a b c : Option Int) :
    maxLo (maxLo a b) c = maxLo a (maxLo b c) := by
  cases a <;> cases b <;> cases c <;> simp [maxLo, max_assoc]

/-- Optional upper bound minima associate. -/
theorem minHi_assoc (a b c : Option Int) :
    minHi (minHi a b) c = minHi a (minHi b c) := by
  cases a <;> cases b <;> cases c <;> simp [minHi, min_assoc]

/-- Satisfying the maximum of two optional lower bounds is satisfying both. -/
theorem optLoSat_maxLo (a b : Option Int) (x : Int) :
    optLoSat (maxLo a b) x = (optLoSat a x && optLoSat b x) := by
  cases a <;> cases b <;>
    simp [maxLo, optLoSat, Bool.eq_iff_iff, Bool.and_eq_true,
      decide_eq_true_eq, max_le_iff]

/-- Satisfying the minimum of two optional upper bounds is satisfying both. -/
theorem optHiSat_minHi (a b : Option Int) (x : Int) :
    optHiSat (minHi a b) x = (optHiSat a x && optHiSat b x) := by
  cases a <;> cases b <;>
    simp [minHi, optHiSat, Bool.eq_iff_iff, Bool.and_eq_true,
      decide_eq_true_eq, lt_min_iff]

/-- Predicate merge is commutative. -/
theorem merge_comm (p q : Pred) : p.merge q = q.merge p := by
  cases p <;> cases q <;>
    simp only [Pred.merge, maxLo_comm, minHi_comm] <;>
    split_ifs <;> simp_all

/-- Merging a simplified range with a plain range agrees with merging the
underlying bounds. -/
theorem merge_mkRange_left (l1 h1 l2 h2 : Option Int) :
    (mkRange l1 h1).merge (.range l2 h2) = mkRange (maxLo l1 l2) (minHi h1 h2) := by
  cases l1 with
  | none => rfl
  | some l =>
    cases h1 with
    | none => rfl
    | some h =>
      by_cases hle : h ≤ l
      · have e1 : mkRange (some l) (some h) = .unsat := by simp [mkRange, hle]
        rw [e1]
        cases l2 <;> cases h2 <;>
          simp only [Pred.merge, maxLo, minHi, mkRange, max_def, min_def] <;>
          (try split_ifs) <;> first | rfl | omega | (exfalso; omega)
      · by_cases heq : h = l + 1
        · have e1 : mkRange (some l) (some h) = .equality l := by
            simp [mkRange, hle, heq]
          rw [e1]
          subst heq
          cases l2 <;> cases h2 <;>
            simp only [Pred.merge, maxLo, minHi, mkRange, optLoSat, optHiSat,
              Bool.and_eq_true, Bool.true_and, Bool.and_true,
              decide_eq_true_eq, max_def, min_def] <;>
            (try split_ifs) <;>
            first
              | rfl
              | omega
              | (simp only [Pred.equality.injEq, Pred.range.injEq,
                  Option.some.injEq]; omega)
              | (exfalso; omega)
        · have e1 : mkRange (some l) (some h) = .range (some l) (some h) := by
            simp [mkRange, hle, heq]
          rw [e1]
          rfl

/-- Mirror image of merge_mkRange_left. -/
theorem merge_mkRange_right (l1 h1 l2 h2 : Option Int) :
    (Pred.range l1 h1).merge (mkRange l2 h2) = mkRange (maxLo l1 l2) (minHi h1 h2) := by
  rw [merge_comm, merge_mkRange_left, maxLo_comm, minHi_comm]

/-- Merging an equality into a simplified range is the membership test on the
underlying bounds. -/
theorem merge_eq_mkRange (v : Int) (l h : Option Int) :
    (Pred.equality v).merge (mkRange l h) =
      (if optLoSat l v && optHiSat h v then Pred.equality v else Pred.unsat) := by
  cases l with
  | none => cases h <;> rfl
  | some a =>
    cases h with
    | none => rfl
    | some b =>
      by_cases hle : b ≤ a
      · have e1 : mkRange (some a) (some b) = .unsat := by simp [mkRange, hle]
        rw [e1, merge_unsat_right]
        simp only [optLoSat, optHiSat, Bool.and_eq_true, decide_eq_true_eq]
        rw [if_neg (by omega)]
      · by_cases heq : b = a + 1
        · have e1 : mkRange (some a) (some b) = .equality a := by
            simp [mkRange, hle, heq]
          rw [e1]
          subst heq
          simp only [Pred.merge, optLoSat, optHiSat, Bool.and_eq_true,
            decide_eq_true_eq]
          split_ifs <;>
            first
              | rfl
              | omega
              | (simp only [Pred.equality.injEq]; omega)
              | (exfalso; omega)
        · have e1 : mkRange (some a) (some b) = .range (some a) (some b) := by
            simp [mkRange, hle, heq]
          rw [e1]
          rfl

/-- Mirror image of merge_eq_mkRange. -/
theorem merge_mkRange_eq (v : Int) (l h : Option Int) :
    (mkRange l h).merge (.equality v) =
      (if optLoSat l v && optHiSat h v then Pred.equality v else Pred.unsat) := by
  rw [merge_comm, merge_eq_mkRange]

/-- Predicate merge is associative. -/
theorem merge_assoc (p q r : Pred) : (p.merge q).merge r = p.merge (q.merge r) := by
  cases p with
  | unsat => simp only [Pred.merge]
  | equality v =>
    cases q with
    | unsat => simp only [Pred.merge]
    | equality w =>
      cases r with
      | unsat => simp only [merge_unsat_right]
      | equality u =>
        by_cases h : v = w
        · subst h
          by_cases h2 : v = u <;> simp [Pred.merge, h2]
        · by_cases h2 : w = u
          · subst h2
            simp [Pred.merge, h, merge_unsat_right]
          · simp [Pred.merge, h, h2, merge_unsat_right]
      | range l3 h3 =>
        by_cases h : v = w
        · subst h
          cases h3l : optLoSat l3 v <;> cases h3h : optHiSat h3 v <;>
            simp [Pred.merge, h3l, h3h]
        · cases h3l : optLoSat l3 w <;> cases h3h : optHiSat h3 w <;>
            simp [Pred.merge, h3l, h3h, h, merge_unsat_right]
    | range l2 h2 =>
      cases r with
      | unsat => simp only [merge_unsat_right]
      | equality u =>
        by_cases h : v = u
        · subst h
          cases h2l : optLoSat l2 v <;> cases h2h : optHiSat h2 v <;>
            simp [Pred.merge, h2l, h2h, merge_unsat_right]
        · cases h2l : optLoSat l2 v <;> cases h2h : optHiSat h2 v <;>
            cases h2lu : optLoSat l2 u <;> cases h2hu : optHiSat h2 u <;>
            simp [Pred.merge, h2l, h2h, h2lu, h2hu, h, merge_unsat_right]
      | range l3 h3 =>
        have hqr : (Pred.range l2 h2).merge (.range l3 h3)
            = mkRange (maxLo l2 l3) (minHi h2 h3) := rfl
        rw [hqr, merge_eq_mkRange, optLoSat_maxLo, optHiSat_minHi]
        cases h2l : optLoSat l2 v <;> cases h2h : optHiSat h2 v <;>
          cases h3l : optLoSat l3 v <;> cases h3h : optHiSat h3 v <;>
          simp [Pred.merge, h2l, h2h, h3l, h3h, merge_unsat_right]
  | range l1 h1 =>
    cases q with
    | unsat => simp only [Pred.merge]
    | equality w =>
      cases r with
      | unsat => simp only [merge_unsat_right]
      | equality u =>
        by_cases h : w = u
        · subst h
          cases h1l : optLoSat l1 w <;> cases h1h : optHiSat h1 w <;>
            simp [Pred.merge, h1l, h1h, merge_unsat_right]
        · cases h1l : optLoSat l1 w <;> cases h1h : optHiSat h1 w <;>
            simp [Pred.merge, h1l, h1h, h, merge_unsat_right]
      | range l3 h3 =>
        cases h1l : optLoSat l1 w <;> cases h1h : optHiSat h1 w <;>
          cases h3l : optLoSat l3 w <;> cases h3h : optHiSat h3 w <;>
          simp [Pred.merge, h1l, h1h, h3l, h3h, merge_unsat_right]
    | range l2 h2 =>
      cases r with
      | unsat => simp only [merge_unsat_right]
      | equality u =>
        have hpq : (Pred.range l1 h1).merge (.range l2 h2)
            = mkRange (maxLo l1 l2) (minHi h1 h2) := rfl
        rw [hpq, merge_mkRange_eq, optLoSat_maxLo, optHiSat_minHi]
        cases h1l : optLoSat l1 u <;> cases h1h : optHiSat h1 u <;>
          cases h2l : optLoSat l2 u <;> cases h2h : optHiSat h2 u <;>
          simp [Pred.merge, h1l, h1h, h2l, h2h, merge_unsat_right]
      | range l3 h3 =>
        have hpq : (Pred.range l1 h1).merge (.range l2 h2)
            = mkRange (maxLo l1 l2) (minHi h1 h2) := rfl
        have hqr : (Pred.range l2 h2).merge (.range l3 h3)
            = mkRange (maxLo l2 l3) (minHi h2 h3) := rfl
        rw [hpq, hqr, merge_mkRange_left, merge_mkRange_right,
          maxLo_assoc, minHi_assoc]

/-- Adding two predicates to the same entry in either order gives the same
entry. -/
theorem addMerge_swap (x : Option Pred) (p1 p2 : Pred) :
    addMerge (addMerge x p1) p2 = addMerge (addMerge x p2) p1 := by
  cases x with
  | none => simp only [addMerge]; rw [merge_comm]
  | some q => simp only [addMerge]; rw [merge_assoc, merge_assoc, merge_comm p1 p2]

/-- Adding two predicates to a predicate set in either order gives the same
set. -/
theorem add_swap (m : PredMap) (c1 c2 : Col) (p1 p2 : Pred) :
    (m.add c1 p1).add c2 p2 = (m.add c2 p2).add c1 p1 := by
  cases c1 <;> cases c2 <;> simp [PredMap.add, addMerge_swap]

/-- Adding a permuted list of predicates gives the same predicate set. -/
theorem addList_perm (l1 l2 : List (Col × Pred)) (h : l1.Perm l2) (m : PredMap) :
    addList m l1 = addList m l2 := by
  induction h generalizing m with
  | nil => rfl
  | cons x _ ih => exact ih _
  | swap x y l =>
    show addList ((m.add y.1 y.2).add x.1 x.2) l = addList ((m.add x.1 x.2).add y.1 y.2) l
    rw [add_swap]
  | trans _ _ ih1 ih2 => exact (ih1 m).trans (ih2 m)

/-- C9: predicate merge is commutative and associative, every permutation of
the added predicates yields the same merged predicate set, and in particular
adding b = 126 then a = 126 optimizes to the same result as adding a = 126
then b = 126. -/
theorem merge_comm_assoc_order_invariant :
    (∀ p q : Pred, p.merge q = q.merge p)
    ∧ (∀ p q r : Pred, (p.merge q).merge r = p.merge (q.merge r))
    ∧ (∀ l1 l2 : List (Col × Pred), l1.Perm l2 → ∀ m : PredMap, addList m l1 = addList m l2)
    ∧ optimizeScan ⟨addList emptyMap [(Col.b, .equality 126), (Col.a, .equality 126)], none, none⟩ true
      = optimizeScan ⟨addList emptyMap [(Col.a, .equality 126), (Col.b, .equality 126)], none, none⟩ true :=
  ⟨merge_comm, merge_assoc, addList_perm, by decide⟩

/-- Witness for C9 at a concrete permutation: the two addition orders of
b = 126 and a = 126 build the same predicate set. -/
theorem merge_comm_assoc_order_invariant_applied :
    addList emptyMap [(Col.b, Pred.equality 126), (Col.a, Pred.equality 126)]
      = addList emptyMap [(Col.a, Pred.equality 126), (Col.b, Pred.equality 126)] :=
  merge_comm_assoc_order_invariant.2.2.1 _ _
    (List.Perm.swap (Col.a, Pred.equality 126) (Col.b, Pred.equality 126) []) emptyMap

/-- A satisfied predicate respects its lower bound value. -/
theorem lo_le {p : Option Pred} {x l : Int} (hs : satOpt p x = true)
    (hl : predLo p = some l) : l ≤ x := by
  match p with
  | none => simp [predLo] at hl
  | some (.equality v) =>
    simp only [predLo, Option.some.injEq] at hl
    simp only [satOpt, Pred.sat, decide_eq_true_eq] at hs
    omega
  | some (.range none hi) => simp [predLo] at hl
  | some (.range (some l0) hi) =>
    simp only [predLo, Option.some.injEq] at hl
    simp only [satOpt, Pred.sat, Bool.and_eq_true] at hs
    obtain ⟨hs1, hs2⟩ := hs
    simp only [optLoSat, decide_eq_true_eq] at hs1
    omega
  | some .unsat => simp [satOpt, Pred.sat] at hs

/-- A satisfied predicate respects its exclusive high bound. -/
theorem hi_lt {p : Option Pred} {x h : Int} (hs : satOpt p x = true)
    (hh : predHiX p = some h) : x < h := by
  match p with
  | none => simp [predHiX] at hh
  | some (.equality v) => simp [predHiX] at hh
  | some (.range lo none) => simp [predHiX] at hh
  | some (.range lo (some h0)) =>
    simp only [predHiX, Option.some.injEq] at hh
    simp only [satOpt, Pred.sat, Bool.and_eq_true] at hs
    obtain ⟨hs1, hs2⟩ := hs
    simp only [optHiSat, decide_eq_true_eq] at hs2
    omega
  | some .unsat => simp [satOpt, Pred.sat] at hs

/-- A present equality value determines the shape of the predicate. -/
theorem eqVal_shape {p : Option Pred} {v : Int} (he : eqVal p = some v) :
    p = some (.equality v) := by
  match p with
  | none => simp [eqVal] at he
  | some (.equality w) =>
    simp only [eqVal, Option.some.injEq] at he
    rw [he]
  | some (.range lo hi) => simp [eqVal] at he
  | some .unsat => simp [eqVal] at he

/-- A well-formed non-equality predicate is satisfied exactly by values
respecting its present bounds. -/
theorem recover_nonEq {p : Option Pred} {x : Int}
    (hw : wfOpt p = true) (hne : eqVal p = none)
    (hlo : ∀ l, predLo p = some l → l ≤ x)
    (hhi : ∀ h, predHiX p = some h → x < h) :
    satOpt p x = true := by
  match p with
  | none => rfl
  | some (.equality v) => simp [eqVal] at hne
  | some (.range none none) => simp [wfOpt, Pred.wf] at hw
  | some (.range none (some h)) =>
    have := hhi h (by simp [predHiX])
    simp only [satOpt, Pred.sat, optLoSat, optHiSat, Bool.true_and,
      decide_eq_true_eq]
    omega
  | some (.range (some l) none) =>
    have := hlo l (by simp [predLo])
    simp only [satOpt, Pred.sat, optLoSat, optHiSat, Bool.and_true,
      decide_eq_true_eq]
    omega
  | some (.range (some l) (some h)) =>
    have h1 := hlo l (by simp [predLo])
    have h2 := hhi h (by simp [predHiX])
    simp only [satOpt, Pred.sat, optLoSat, optHiSat, Bool.and_eq_true,
      decide_eq_true_eq]
    omega
  | some .unsat => simp [wfOpt, Pred.wf] at hw

/-- A well-formed exclusive high bound lies in the int8 domain above MIN. -/
theorem wf_hi {p : Option Pred} {h : Int} (hw : wfOpt p = true)
    (hh : predHiX p = some h) : -128 < h ∧ h ≤ 127 := by
  match p with
  | none => simp [predHiX] at hh
  | some (.equality v) => simp [predHiX] at hh
  | some (.range lo none) => simp [predHiX] at hh
  | some (.range none (some h0)) =>
    simp only [predHiX, Option.some.injEq] at hh
    simp only [wfOpt, Pred.wf, Bool.and_eq_true, decide_eq_true_eq,
      int8Min, int8Max] at hw
    omega
  | some (.range (some l) (some h0)) =>
    simp only [predHiX, Option.some.injEq] at hh
    simp only [wfOpt, Pred.wf, Bool.and_eq_true, decide_eq_true_eq,
      int8Min, int8Max] at hw
    omega
  | some .unsat => simp [wfOpt, Pred.wf] at hw

/-- A well-formed equality value lies in the int8 domain. -/
theorem wf_eq {p : Option Pred} {v : Int} (hw : wfOpt p = true)
    (he : eqVal p = some v) : -128 ≤ v ∧ v ≤ 127 := by
  rw [eqVal_shape he] at hw
  simp only [wfOpt, Pred.wf, Bool.and_eq_true, decide_eq_true_eq,
    int8Min, int8Max] at hw
  omega

/-- The pushed lower key starts with the first lower bound value. -/
theorem pushLower_head {m : PredMap} {la : Int} (h : predLo m.pa = some la) :
    ∃ b c, pushLower m = some (la, b, c) := by
  simp only [pushLower, h]
  cases hpb : predLo m.pb with
  | none => exact ⟨_, _, rfl⟩
  | some lb =>
    cases hpc : predLo m.pc with
    | none => exact ⟨_, _, rfl⟩
    | some lc => exact ⟨_, _, rfl⟩

/-- Soundness of the pushed lower key: every valid row satisfying the
predicate set lies at or above it. -/
theorem pushLower_sound {m : PredMap} {x y z : Int}
    (hv : validRowB (x, y, z) = true) (hs : m.satRow (x, y, z) = true) :
    loKeyOk (pushLower m) (x, y, z) = true := by
  simp only [validRowB, Bool.and_eq_true, decide_eq_true_eq,
    int8Min, int8Max] at hv
  simp only [PredMap.satRow, Bool.and_eq_true] at hs
  obtain ⟨⟨hsa, hsb⟩, hsc⟩ := hs
  cases hpa : predLo m.pa with
  | none => simp [pushLower, hpa, loKeyOk]
  | some la =>
    have h1 : la ≤ x := lo_le hsa hpa
    cases hpb : predLo m.pb with
    | none =>
      simp only [pushLower, hpa, hpb, loKeyOk, keyLe, Bool.or_eq_true,
        Bool.and_eq_true, decide_eq_true_eq, int8Min]
      omega
    | some lb =>
      have h2 : lb ≤ y := lo_le hsb hpb
      cases hpc : predLo m.pc with
      | none =>
        simp only [pushLower, hpa, hpb, hpc, loKeyOk, keyLe, Bool.or_eq_true,
          Bool.and_eq_true, decide_eq_true_eq, int8Min]
        omega
      | some lc =>
        have h3 : lc ≤ z := lo_le hsc hpc
        simp only [pushLower, hpa, hpb, hpc, loKeyOk, keyLe, Bool.or_eq_true,
          Bool.and_eq_true, decide_eq_true_eq, int8Min]
        omega

/-- Soundness of the pushed upper key: every valid row satisfying the
predicate set lies strictly below it. -/
theorem pushUpper_sound {m : PredMap} {x y z : Int}
    (hw : m.wf = true) (hv : validRowB (x, y, z) = true)
    (hs : m.satRow (x, y, z) = true) :
    hiKeyOk (pushUpper m) (x, y, z) = true := by
  simp only [validRowB, Bool.and_eq_true, decide_eq_true_eq,
    int8Min, int8Max] at hv
  simp only [PredMap.satRow, Bool.and_eq_true] at hs
  obtain ⟨⟨hsa, hsb⟩, hsc⟩ := hs
  simp only [PredMap.wf, Bool.and_eq_true] at hw
  obtain ⟨⟨hwa, hwb⟩, hwc⟩ := hw
  cases hea : eqVal m.pa with
  | none =>
    cases hha : predHiX m.pa with
    | none => simp [pushUpper, hea, hha, hiKeyOk]
    | some h =>
      have hxh : x < h := hi_lt hsa hha
      have hb := wf_hi hwa hha
      have hcell : h - 1 < (127 : Int) := by omega
      simp only [pushUpper, hea, hha, succCarry, succCarry0, succCell,
        int8Max, int8Min, hcell, if_true, hiKeyOk, keyLt, Bool.or_eq_true,
        Bool.and_eq_true, decide_eq_true_eq]
      omega
  | some va =>
    have hxa : x = va := by
      rw [eqVal_shape hea] at hsa
      simpa only [satOpt, Pred.sat, decide_eq_true_eq] using hsa
    cases heb : eqVal m.pb with
    | none =>
      cases hhb : predHiX m.pb with
      | some h =>
        have hyh : y < h := hi_lt hsb hhb
        have hb := wf_hi hwb hhb
        have hcell : h - 1 < (127 : Int) := by omega
        simp only [pushUpper, hea, heb, hhb, succCarry, succCarry1, succCell,
          int8Max, int8Min, hcell, if_true, hiKeyOk, keyLt, Bool.or_eq_true,
          Bool.and_eq_true, decide_eq_true_eq]
        omega
      | none =>
        have hba := wf_eq hwa hea
        by_cases hva : va < (127 : Int)
        · simp only [pushUpper, hea, heb, hhb, succCarry, succCarry0, succCell,
            int8Max, int8Min, hva, if_true, hiKeyOk, keyLt, Bool.or_eq_true,
            Bool.and_eq_true, decide_eq_true_eq]
          omega
        · simp only [pushUpper, hea, heb, hhb, succCarry, succCarry0, succCell,
            int8Max, int8Min, hva, if_false, hiKeyOk]
    | some vb =>
      have hyb : y = vb := by
        rw [eqVal_shape heb] at hsb
        simpa only [satOpt, Pred.sat, decide_eq_true_eq] using hsb
      have hba := wf_eq hwa hea
      have hbb := wf_eq hwb heb
      cases hec : eqVal m.pc with
      | none =>
        cases hhc : predHiX m.pc with
        | some h =>
          have hzh : z < h := hi_lt hsc hhc
          have hb := wf_hi hwc hhc
          have hcell : h - 1 < (127 : Int) := by omega
          simp only [pushUpper, hea, heb, hec, hhc, succCarry, succCarry2,
            succCell, int8Max, int8Min, hcell, if_true, hiKeyOk, keyLt,
            Bool.or_eq_true, Bool.and_eq_true, decide_eq_true_eq]
          omega
        | none =>
          by_cases hvb : vb < (127 : Int)
          · simp only [pushUpper, hea, heb, hec, hhc, succCarry, succCarry1,
              succCell, int8Max, int8Min, hvb, if_true, hiKeyOk, keyLt,
              Bool.or_eq_true, Bool.and_eq_true, decide_eq_true_eq]
            omega
          · by_cases hva : va < (127 : Int)
            · simp only [pushUpper, hea, heb, hec, hhc, succCarry, succCarry1,
                succCarry0, succCell, int8Max, int8Min, hvb, hva, if_true,
                if_false, hiKeyOk, keyLt, Bool.or_eq_true, Bool.and_eq_true,
                decide_eq_true_eq]
              omega
            · simp only [pushUpper, hea, heb, hec, hhc, succCarry, succCarry1,
                succCarry0, succCell, int8Max, int8Min, hvb, hva, if_false,
                hiKeyOk]
      | some vc =>
        have hzc : z = vc := by
          rw [eqVal_shape hec] at hsc
          simpa only [satOpt, Pred.sat, decide_eq_true_eq] using hsc
        have hbc := wf_eq hwc hec
        by_cases hvc : vc < (127 : Int)
        · simp only [pushUpper, hea, heb, hec, succCarry, succCarry2, succCell,
            int8Max, int8Min, hvc, if_true, hiKeyOk, keyLt, Bool.or_eq_true,
            Bool.and_eq_true, decide_eq_true_eq]
          omega
        · by_cases hvb : vb < (127 : Int)
          · simp only [pushUpper, hea, heb, hec, succCarry, succCarry2,
              succCarry1, succCell, int8Max, int8Min, hvc, hvb, if_true,
              if_false, hiKeyOk, keyLt, Bool.or_eq_true, Bool.and_eq_true,
              decide_eq_true_eq]
            omega
          · by_cases hva : va < (127 : Int)
            · simp only [pushUpper, hea, heb, hec, succCarry, succCarry2,
                succCarry1, succCarry0, succCell, int8Max, int8Min, hvc, hvb,
                hva, if_true, if_false, hiKeyOk, keyLt, Bool.or_eq_true,
                Bool.and_eq_true, decide_eq_true_eq]
              omega
            · simp only [pushUpper, hea, heb, hec, succCarry, succCarry2,
                succCarry1, succCarry0, succCell, int8Max, int8Min, hvc, hvb,
                hva, if_false, hiKeyOk]

/-- The pushed lower key through two contributing columns. -/
theorem pushLower_second {m : PredMap} {la lb : Int}
    (ha : predLo m.pa = some la) (hb : predLo m.pb = some lb) :
    ∃ c, pushLower m = some (la, lb, c) := by
  simp only [pushLower, ha, hb]
  cases hpc : predLo m.pc with
  | none => exact ⟨_, rfl⟩
  | some lc => exact ⟨_, rfl⟩

/-- The pushed lower key through three contributing columns. -/
theorem pushLower_third {m : PredMap} {la lb lc : Int}
    (ha : predLo m.pa = some la) (hb : predLo m.pb = some lb)
    (hc : predLo m.pc = some lc) :
    pushLower m = some (la, lb, lc) := by
  simp only [pushLower, ha, hb, hc]

/-- Completeness of pruning: a valid row inside the pushed key range that
satisfies the residual predicates satisfies the whole predicate set. -/
theorem pushed_recover {m : PredMap} {x y z : Int}
    (hw : m.wf = true) (hv : validRowB (x, y, z) = true)
    (hlo : loKeyOk (pushLower m) (x, y, z) = true)
    (hhi : hiKeyOk (pushUpper m) (x, y, z) = true)
    (hres : (prune m).satRow (x, y, z) = true) :
    m.satRow (x, y, z) = true := by
  simp only [validRowB, Bool.and_eq_true, decide_eq_true_eq,
    int8Min, int8Max] at hv
  simp only [PredMap.wf, Bool.and_eq_true] at hw
  obtain ⟨⟨hwa, hwb⟩, hwc⟩ := hw
  simp only [PredMap.satRow, Bool.and_eq_true]
  cases hea : eqVal m.pa with
  | none =>
    have hk : eqPrefixLen m = 0 := by simp [eqPrefixLen, hea]
    simp only [prune, hk, PredMap.satRow, satOpt, Bool.true_and,
      Bool.and_eq_true] at hres
    obtain ⟨hsb, hsc⟩ := hres
    refine ⟨⟨?_, hsb⟩, hsc⟩
    refine recover_nonEq hwa hea (fun l hl => ?_) (fun h hh => ?_)
    · obtain ⟨b0, c0, hL⟩ := pushLower_head hl
      have hlo2 := hlo
      rw [hL] at hlo2
      simp only [loKeyOk, keyLe, Bool.or_eq_true, Bool.and_eq_true,
        decide_eq_true_eq] at hlo2
      omega
    · have hb := wf_hi hwa hh
      have hcell : h - 1 < (127 : Int) := by omega
      have hhi2 := hhi
      simp only [pushUpper, hea, hh, succCarry, succCarry0, succCell,
        int8Max, int8Min, hcell, if_true, hiKeyOk, keyLt, Bool.or_eq_true,
        Bool.and_eq_true, decide_eq_true_eq] at hhi2
      omega
  | some va =>
    have hpa' := eqVal_shape hea
    have hplo : predLo m.pa = some va := by rw [hpa']; rfl
    have hba := wf_eq hwa hea
    have hxlo : va ≤ x := by
      obtain ⟨b0, c0, hL⟩ := pushLower_head hplo
      have hlo2 := hlo
      rw [hL] at hlo2
      simp only [loKeyOk, keyLe, Bool.or_eq_true, Bool.and_eq_true,
        decide_eq_true_eq] at hlo2
      omega
    cases heb : eqVal m.pb with
    | none =>
      have hk : eqPrefixLen m = 1 := by simp [eqPrefixLen, hea, heb]
      simp only [prune, hk, PredMap.satRow, satOpt, Bool.true_and,
        Bool.and_eq_true] at hres
      cases hhb : predHiX m.pb with
      | some h =>
        have hb := wf_hi hwb hhb
        have hcell : h - 1 < (127 : Int) := by omega
        have hhi2 := hhi
        simp only [pushUpper, hea, heb, hhb, succCarry, succCarry1, succCell,
          int8Max, int8Min, hcell, if_true, hiKeyOk, keyLt, Bool.or_eq_true,
          Bool.and_eq_true, decide_eq_true_eq] at hhi2
        have hxa : x = va := by omega
        refine ⟨⟨?_, ?_⟩, hres⟩
        · rw [hpa']
          simp only [satOpt, Pred.sat, decide_eq_true_eq]
          omega
        · refine recover_nonEq hwb heb (fun l hl => ?_) (fun hq hqe => ?_)
          · obtain ⟨c0, hL⟩ := pushLower_second hplo hl
            have hlo2 := hlo
            rw [hL] at hlo2
            simp only [loKeyOk, keyLe, Bool.or_eq_true, Bool.and_eq_true,
              decide_eq_true_eq] at hlo2
            omega
          · rw [hhb] at hqe
            injection hqe with hqe
            omega
      | none =>
        have hxa : x = va := by
          by_cases hva : va < (127 : Int)
          · have hhi2 := hhi
            simp only [pushUpper, hea, heb, hhb, succCarry, succCarry0,
              succCell, int8Max, int8Min, hva, if_true, hiKeyOk, keyLt,
              Bool.or_eq_true, Bool.and_eq_true, decide_eq_true_eq] at hhi2
            omega
          · omega
        refine ⟨⟨?_, ?_⟩, hres⟩
        · rw [hpa']
          simp only [satOpt, Pred.sat, decide_eq_true_eq]
          omega
        · refine recover_nonEq hwb heb (fun l hl => ?_) (fun hq hqe => ?_)
          · obtain ⟨c0, hL⟩ := pushLower_second hplo hl
            have hlo2 := hlo
            rw [hL] at hlo2
            simp only [loKeyOk, keyLe, Bool.or_eq_true, Bool.and_eq_true,
              decide_eq_true_eq] at hlo2
            omega
          · rw [hhb] at hqe
            cases hqe
    | some vb =>
      have hpb' := eqVal_shape heb
      have hpbo : predLo m.pb = some vb := by rw [hpb']; rfl
      have hbb := wf_eq hwb heb
      have hlo2 : vb ≤ y ∨ va < x := by
        obtain ⟨c0, hL⟩ := pushLower_second hplo hpbo
        have hlo3 := hlo
        rw [hL] at hlo3
        simp only [loKeyOk, keyLe, Bool.or_eq_true, Bool.and_eq_true,
          decide_eq_true_eq] at hlo3
        omega
      cases hec : eqVal m.pc with
      | none =>
        have hk : eqPrefixLen m = 2 := by simp [eqPrefixLen, hea, heb, hec]
        have hperc :
            x = va ∧ y = vb ∧ (∀ hq, predHiX m.pc = some hq → z < hq) := by
          cases hhc : predHiX m.pc with
          | some h =>
            have hb := wf_hi hwc hhc
            have hcell : h - 1 < (127 : Int) := by omega
            have hhi2 := hhi
            simp only [pushUpper, hea, heb, hec, hhc, succCarry, succCarry2,
              succCell, int8Max, int8Min, hcell, if_true, hiKeyOk, keyLt,
              Bool.or_eq_true, Bool.and_eq_true, decide_eq_true_eq] at hhi2
            refine ⟨by omega, by omega, fun hq hqe => ?_⟩
            injection hqe with hqe
            omega
          | none =>
            refine ⟨?_, ?_, fun hq hqe => by cases hqe⟩ <;>
            · by_cases hvb : vb < (127 : Int)
              · have hhi2 := hhi
                simp only [pushUpper, hea, heb, hec, hhc, succCarry,
                  succCarry1, succCell, int8Max, int8Min, hvb, if_true,
                  hiKeyOk, keyLt, Bool.or_eq_true, Bool.and_eq_true,
                  decide_eq_true_eq] at hhi2
                omega
              · by_cases hva : va < (127 : Int)
                · have hhi2 := hhi
                  simp only [pushUpper, hea, heb, hec, hhc, succCarry,
                    succCarry1, succCarry0, succCell, int8Max, int8Min, hvb,
                    hva, if_true, if_false, hiKeyOk, keyLt, Bool.or_eq_true,
                    Bool.and_eq_true, decide_eq_true_eq] at hhi2
                  omega
                · omega
        obtain ⟨hxa, hyb, hzhi⟩ := hperc
        refine ⟨⟨?_, ?_⟩, ?_⟩
        · rw [hpa']
          simp only [satOpt, Pred.sat, decide_eq_true_eq]
          omega
        · rw [hpb']
          simp only [satOpt, Pred.sat, decide_eq_true_eq]
          omega
        · refine recover_nonEq hwc hec (fun l hl => ?_) (fun hq hqe => hzhi hq hqe)
          have hL := pushLower_third hplo hpbo hl
          have hlo3 := hlo
          rw [hL] at hlo3
          simp only [loKeyOk, keyLe, Bool.or_eq_true, Bool.and_eq_true,
            decide_eq_true_eq] at hlo3
          omega
      | some vc =>
        have hpc' := eqVal_shape hec
        have hpco : predLo m.pc = some vc := by rw [hpc']; rfl
        have hbc := wf_eq hwc hec
        have hL := pushLower_third hplo hpbo hpco
        have hlo3 := hlo
        rw [hL] at hlo3
        simp only [loKeyOk, keyLe, Bool.or_eq_true, Bool.and_eq_true,
          decide_eq_true_eq] at hlo3
        have hpin : x = va ∧ y = vb ∧ z = vc := by
          by_cases hvc : vc < (127 : Int)
          · have hhi2 := hhi
            simp only [pushUpper, hea, heb, hec, succCarry, succCarry2,
              succCell, int8Max, int8Min, hvc, if_true, hiKeyOk, keyLt,
              Bool.or_eq_true, Bool.and_eq_true, decide_eq_true_eq] at hhi2
            omega
          · by_cases hvb : vb < (127 : Int)
            · have hhi2 := hhi
              simp only [pushUpper, hea, heb, hec, succCarry, succCarry2,
                succCarry1, succCell, int8Max, int8Min, hvc, hvb, if_true,
                if_false, hiKeyOk, keyLt, Bool.or_eq_true, Bool.and_eq_true,
                decide_eq_true_eq] at hhi2
              omega
            · by_cases hva : va < (127 : Int)
              · have hhi2 := hhi
                simp only [pushUpper, hea, heb, hec, succCarry, succCarry2,
                  succCarry1, succCarry0, succCell, int8Max, int8Min, hvc,
                  hvb, hva, if_true, if_false, hiKeyOk, keyLt,
                  Bool.or_eq_true, Bool.and_eq_true, decide_eq_true_eq] at hhi2
                omega
              · omega
        obtain ⟨hxa, hyb, hzc⟩ := hpin
        refine ⟨⟨?_, ?_⟩, ?_⟩
        · rw [hpa']
          simp only [satOpt, Pred.sat, decide_eq_true_eq]
          omega
        · rw [hpb']
          simp only [satOpt, Pred.sat, decide_eq_true_eq]
          omega
        · rw [hpc']
          simp only [satOpt, Pred.sat, decide_eq_true_eq]
          omega

/-- Pruning only removes predicates, so satisfaction is preserved. -/
theorem prune_keep {m : PredMap} {r : Row} (hs : m.satRow r = true) :
    (prune m).satRow r = true := by
  simp only [PredMap.satRow, Bool.and_eq_true] at hs
  obtain ⟨⟨hsa, hsb⟩, hsc⟩ := hs
  rcases hk : eqPrefixLen m with _ | _ | k
  · simp only [prune, hk, PredMap.satRow, Bool.and_eq_true]
    exact ⟨⟨rfl, hsb⟩, hsc⟩
  · simp only [prune, hk, PredMap.satRow, Bool.and_eq_true]
    exact ⟨⟨rfl, rfl⟩, hsc⟩
  · simp only [prune, hk, PredMap.satRow, Bool.and_eq_true]
    exact ⟨⟨rfl, rfl⟩, rfl⟩

/-- C1: for every well-formed predicate set and every valid row, the row
satisfies the original conjunction of column predicates exactly when its
encoded key lies in the half-open range produced by Optimize and it
satisfies every residual predicate remaining in the set; in particular the
derived key range never excludes a row matching all original predicates. -/
theorem optimize_pushdown_equivalence (m : PredMap) (hw : m.wf = true)
    (r : Row) (hv : validRowB r = true) :
    m.satRow r = true ↔
      (inRangeB (optimizeScan ⟨m, none, none⟩ true).lowerKey
          (optimizeScan ⟨m, none, none⟩ true).upperKey r = true
        ∧ (optimizeScan ⟨m, none, none⟩ true).preds.satRow r = true) := by
  obtain ⟨x, y, z⟩ := r
  have hopt : optimizeScan ⟨m, none, none⟩ true
      = ⟨prune m, pushLower m, pushUpper m⟩ := by
    simp [optimizeScan, liftBounds, applyLift, mkRange, keyMaxOpt, keyMinOpt]
  rw [hopt]
  simp only [inRangeB, Bool.and_eq_true]
  constructor
  · intro hs
    exact ⟨⟨pushLower_sound hv hs, pushUpper_sound hw hv hs⟩, prune_keep hs⟩
  · rintro ⟨⟨hlo, hhi⟩, hres⟩
    exact pushed_recover hw hv hlo hhi hres

/-- Witness for C1: the equivalence applied to the Scenario C predicate set
(a at-least 3, b at-least 4, c at-least 5) at the concrete valid row
(5, 4, 7). -/
theorem optimize_pushdown_equivalence_applied :
    PredMap.satRow ⟨some (.range (some 3) none), some (.range (some 4) none),
        some (.range (some 5) none)⟩ (5, 4, 7) = true ↔
      (inRangeB
          (optimizeScan ⟨⟨some (.range (some 3) none), some (.range (some 4) none),
              some (.range (some 5) none)⟩, none, none⟩ true).lowerKey
          (optimizeScan ⟨⟨some (.range (some 3) none), some (.range (some 4) none),
              some (.range (some 5) none)⟩, none, none⟩ true).upperKey (5, 4, 7) = true
        ∧ (optimizeScan ⟨⟨some (.range (some 3) none), some (.range (some 4) none),
              some (.range (some 5) none)⟩, none, none⟩ true).preds.satRow (5, 4, 7) = true) :=
  optimize_pushdown_equivalence
    ⟨some (.range (some 3) none), some (.range (some 4) none),
      some (.range (some 5) none)⟩ (by decide) (5, 4, 7) (by decide)

end KuduScanSpec
